import Mathlib

/-!
Verification development for the plan_helper repository.

The repository couples a Flask backend (affinity grouping + two-week plan
scheduling, described in the design document) with a React/TypeScript
frontend.  The frontend sources (API client, planner page, status badges,
SQL schema) are embedded directly from the code; the backend core
(`AffinityEngine.compute`, `PlanScheduler.schedule`) is not present in the
source tree, so it is modelled from the design document, as flagged on each
such definition.

Conventions:
* calendar dates are integers counting days from the Unix epoch
  (1970-01-01, a Thursday);
* efforts, capacities and ratios are rationals (`ℚ`); the code's floating
  point numbers are modelled exactly, "non-finite" values have no
  representative;
* fallible operations return `Except`.
-/

/-! ## Status enums, from the SQL schema and the frontend

`CREATE TYPE ticket_status AS ENUM ('todo','in_progress','blocked','done')`
and the identical `subtask_status` (schema in src/frontend/src/config/env.ts
appendix); `STATUS_COLORS` from src/frontend/src/components/Input.tsx.
-/

/-- The closed status enum from the SQL schema
(`ticket_status` / `subtask_status`). -/
inductive TicketStatus where
  | todo
  | in_progress
  | blocked
  | done
deriving DecidableEq, Repr

/-- The SQL label of each status, exactly as in the `CREATE TYPE` statement. -/
def TicketStatus.label : TicketStatus → String
  | .todo => "todo"
  | .in_progress => "in_progress"
  | .blocked => "blocked"
  | .done => "done"

/-- The badge colour lookup `STATUS_COLORS` from `Input.tsx`, keyed by
status string; unknown keys fall through to a default (modelled as `none`,
the code's `?? fallback`). -/
def STATUS_COLORS (k : String) : Option String :=
  if k = "todo" then some "bg-slate-800 text-slate-200"
  else if k = "in_progress" then some "bg-amber-500/20 text-amber-200"
  else if k = "done" then some "bg-emerald-500/20 text-emerald-200"
  else if k = "blocked" then some "bg-rose-500/20 text-rose-200"
  else none

/-! ## The shared API client, from `src/api/client.ts`
(stored in src/frontend/tailwind.config.ts appendix). -/

/-- A settled `fetch` response as the `request` helper observes it:
`ok`, `status`, `statusText`, the body text (`response.text()`), and the
value `response.json()` resolves to (kept abstract as a string token). -/
structure FetchResponse where
  ok : Bool
  status : Nat
  statusText : String
  body : String
  json : String
deriving DecidableEq, Repr

/-- Outcome of the `request` helper: either a thrown `ApiError`
(message, status) or a returned value (`none` models `undefined`). -/
inductive ApiOutcome where
  | thrown (message : String) (status : Nat)
  | value (v : Option String)
deriving DecidableEq, Repr

/-- The `request` helper from `client.ts`:
`if (!response.ok) throw new ApiError(text || response.statusText,
response.status); if (response.status === 204) return undefined;
return await response.json();` -/
def request (r : FetchResponse) : ApiOutcome :=
  if !r.ok then
    .thrown (if r.body = "" then r.statusText else r.body) r.status
  else if r.status = 204 then
    .value none
  else
    .value (some r.json)

/-! ## Calendar grid, from `buildCalendarWeeks` in the planner page
(src/unnamed/part_006). -/

/-- JavaScript `Date.prototype.getDay` on an epoch-day number:
0 = Sunday … 6 = Saturday; day 0 (1970-01-01) was a Thursday (`getDay = 4`). -/
def jsGetDay (d : ℤ) : ℤ := (d + 4) % 7

/-- The planner page's `buildCalendarWeeks`, on the epoch-day number `s`
of the first day of the displayed month (the function first computes
`startOfMonth(month)`; everything after depends only on that date).  The
imperative cursor loop `cursor = start - offset; 6 × 7 × (push; cursor+1)`
is written as the equivalent indexed grid. -/
def buildCalendarWeeks (s : ℤ) : List (List ℤ) :=
  let offset := (jsGetDay s + 6) % 7
  let first := s - offset
  (List.range 6).map fun w : ℕ =>
    (List.range 7).map fun d : ℕ => first + 7 * (w : ℤ) + (d : ℤ)

/-! ## Work items (design document §3) -/

/-- WorkItem from the design document §3: identifier, free-text label, set
of context tags, estimated effort, lifecycle status.  The status enum is
the code's (`ticket_status`). -/
structure WorkItem where
  id : String
  labelText : String
  tags : List String
  effort : ℚ
  status : TicketStatus
deriving DecidableEq, Repr

/-- The projection of a `WorkItem` the affinity engine actually reads:
identifier, tags, effort (§4.1: grouping is by tag overlap, keys and
rationales are templated from tags and member counts — labels and statuses
are never consulted; the caller filters by status before calling). -/
structure ItemCore where
  id : String
  tags : List String
  effort : ℚ
deriving DecidableEq, Repr

/-- Projection used by `AffinityEngine.compute`. -/
def WorkItem.toCore (i : WorkItem) : ItemCore :=
  { id := i.id, tags := i.tags, effort := i.effort }

/-- AffinityGroup record (design document §3; field names as in the
frontend `AffinityGroup` interface of `client.ts`): group key, templated
rationale, ordered member identifiers. -/
structure AffinityGroup where
  key : String
  rationale : String
  members : List String
deriving DecidableEq, Repr

/-! ## Kernel-computable rational arithmetic

The library's arithmetic on `ℚ` is marked `irreducible`, which would block
the concrete evaluations in the witnesses below; the model therefore
computes with the reduced-fraction smart constructor `mkRat`, which does
reduce, and carries agreement lemmas tying each operation back to the
standard one. -/

/-- Rational addition via `mkRat`; agrees with `+`. -/
def qAdd (a b : ℚ) : ℚ := mkRat (a.num * b.den + b.num * a.den) (a.den * b.den)

/-- Rational subtraction via `mkRat`; agrees with `-`. -/
def qSub (a b : ℚ) : ℚ := mkRat (a.num * b.den - b.num * a.den) (a.den * b.den)

/-- Rational multiplication via `mkRat`; agrees with `*`. -/
def qMul (a b : ℚ) : ℚ := mkRat (a.num * b.num) (a.den * b.den)

theorem qAdd_eq (a b : ℚ) : qAdd a b = a + b := (Rat.add_def' a b).symm

theorem qSub_eq (a b : ℚ) : qSub a b = a - b := (Rat.sub_def' a b).symm

theorem qMul_eq (a b : ℚ) : qMul a b = a * b := (Rat.mul_eq_mkRat a b).symm

/-! ## AffinityEngine (modelled from the design document §4.1) -/

/-- Left fold that keeps the "best" element seen so far, replacing the
current best only on a strict win — so ties keep the earliest element,
realising the document's stable, input-order tie-breaks. -/
def chooseBest (better : α → α → Bool) (l : List α) : Option α :=
  l.foldl (fun acc j =>
    match acc with
    | none => some j
    | some b => if better j b then some j else acc) none

/-- The function `chooseBest` only ever returns an element of the list. -/
theorem chooseBest_mem {better : α → α → Bool} {l : List α} {b : α}
    (h : chooseBest better l = some b) : b ∈ l := by
  suffices H : ∀ (l : List α) (acc : Option α) (b : α),
      l.foldl (fun acc j =>
        match acc with
        | none => some j
        | some b => if better j b then some j else acc) acc = some b →
      acc = some b ∨ b ∈ l by
    rcases H l none b h with h' | h'
    · exact absurd h' (by simp)
    · exact h'
  intro l
  induction l with
  | nil => intro acc b h; exact Or.inl h
  | cons a l ih =>
    intro acc b h
    rcases ih _ b h with h' | h'
    · match acc with
      | none =>
        simp only at h'
        exact Or.inr (by simp [← Option.some_inj.mp h'])
      | some c =>
        simp only at h'
        by_cases hb : better a c
        · simp [hb] at h'
          exact Or.inr (by simp [← h'])
        · simp [hb] at h'
          exact Or.inl (by rw [h'])
    · exact Or.inr (List.mem_cons_of_mem _ h')

/-- The function `chooseBest` returns `none` only on the empty list. -/
theorem chooseBest_eq_none {better : α → α → Bool} {l : List α}
    (h : chooseBest better l = none) : l = [] := by
  cases l with
  | nil => rfl
  | cons a l =>
    exfalso
    suffices H : ∀ (l : List α) (c : α),
        (l.foldl (fun acc j =>
          match acc with
          | none => some j
          | some b => if better j b then some j else acc) (some c)).isSome by
      have := H l a
      unfold chooseBest at h
      simp only [List.foldl_cons] at h
      rw [h] at this
      simp at this
    intro l
    induction l with
    | nil => intro c; simp
    | cons x l ih =>
      intro c
      simp only [List.foldl_cons]
      by_cases hb : better x c
      · simpa [hb] using ih x
      · simpa [hb] using ih c

/-- Dropping the matched part of a list strictly shrinks it, as long as
one element matches. -/
theorem length_filter_not_lt {p : α → Bool} {l : List α} {a : α}
    (ha : a ∈ l) (hpa : p a = true) :
    (l.filter fun j => !(p j)).length < l.length := by
  induction l with
  | nil => cases ha
  | cons x l ih =>
    rcases List.mem_cons.mp ha with rfl | hx
    · simp only [List.filter_cons, hpa]
      exact Nat.lt_succ_of_le (List.length_filter_le _ _)
    · simp only [List.filter_cons]
      by_cases hpx : p x
      · simp only [hpx, Bool.not_true]
        exact Nat.lt_succ_of_lt (ih hx)
      · simp only [Bool.not_eq_true] at hpx
        simp only [hpx, Bool.not_false, List.length_cons]
        exact Nat.succ_lt_succ (ih hx)


namespace AffinityEngine

/-- Modelled from the spec: tag frequency over the input pool — the number
of items carrying tag `t` — the basis of the "rarer shared tags indicate
stronger affinity" weighting of §4.1. -/
def tagFreq (src : List ItemCore) (t : String) : ℕ :=
  (src.filter fun i => t ∈ i.tags).length

/-- Modelled from the spec: specificity weight of a tag; §9 leaves the
exact formula open, so the model takes the inverse frequency `1 / freq`,
which preserves the stated qualitative behaviour (rarer ⇒ heavier). -/
def tagWeight (src : List ItemCore) (t : String) : ℚ :=
  mkRat 1 (tagFreq src t)

/-- Modelled from the spec: similarity between two items — the total
specificity weight of their shared tags (§4.1). -/
def sim (src : List ItemCore) (i j : ItemCore) : ℚ :=
  ((i.tags.filter fun t => t ∈ j.tags).map (tagWeight src)).foldr qAdd 0

/-- Modelled from the spec: total connection strength of an item to the
remaining unclustered pool (§4.1 "strongest remaining unclustered
connections"). -/
def score (src : List ItemCore) (rem : List ItemCore) (i : ItemCore) : ℚ :=
  ((rem.filter fun j => j ≠ i).map (sim src i)).foldr qAdd 0

/-- Modelled from the spec: seed choice — the remaining item with the
strongest connections, earliest in input order on ties (§4.1). -/
def pickSeed (src : List ItemCore) (rem : List ItemCore) : Option ItemCore :=
  chooseBest (fun j b => score src rem j > score src rem b) rem

/-- Modelled from the spec: the group key — the members' most frequent
shared tags, tie-broken and ordered lexicographically, concatenated
(§4.1). -/
def groupKey (members : List ItemCore) : String :=
  let tags := (members.flatMap ItemCore.tags).dedup
  let freq := fun t => (members.filter fun i => t ∈ i.tags).length
  let best := tags.filter fun t => decide (∀ u ∈ tags, freq u ≤ freq t)
  String.intercalate "+" (best.insertionSort (· ≤ ·))

/-- Modelled from the spec: the templated rationale naming the shared
context and the member count; a singleton group gets the "no shared
context" wording (§4.1 edge cases). -/
def groupRationale (n : ℕ) (key : String) : String :=
  if n ≤ 1 then "no shared context"
  else toString n ++ " items sharing context " ++ key

/-- Modelled from the spec: build one `AffinityGroup` from its members,
member order = discovery order = input order (§3). -/
def mkGroup (members : List ItemCore) : AffinityGroup :=
  let key := groupKey members
  { key := key
    rationale := groupRationale members.length key
    members := members.map ItemCore.id }

theorem pickSeed_mem {src rem : List ItemCore} {s : ItemCore}
    (h : pickSeed src rem = some s) : s ∈ rem :=
  chooseBest_mem h

theorem pickSeed_eq_none {src rem : List ItemCore}
    (h : pickSeed src rem = none) : rem = [] :=
  chooseBest_eq_none h

/-- Modelled from the spec: the clustering pass of §4.1 — pick the seed
with the strongest remaining connections, absorb every remaining item
above the similarity threshold (threshold 0: any positive shared-tag
weight, so "shares a tag with the seed"), emit the group, recurse on the
rest.  An item similar to nothing forms a singleton group.  Each round
removes at least the seed, so `rem.length` rounds always suffice; the
explicit `fuel` bound makes the recursion structural. -/
def computeAux (src : List ItemCore) : ℕ → List ItemCore → List AffinityGroup
  | 0, _ => []
  | fuel + 1, rem =>
    match pickSeed src rem with
    | none => []
    | some seed =>
      let p : ItemCore → Bool := fun j => decide (j = seed) || decide (0 < sim src seed j)
      let members := rem.filter p
      let rest := rem.filter fun j => !(p j)
      mkGroup members :: computeAux src fuel rest

/-- Failure conditions of §4.1 / §7. -/
inductive EngineError where
  | invalidInput
deriving DecidableEq, Repr

/-- Modelled from the spec: `AffinityEngine.compute` (§4.1).  Validates
efforts (negative effort ⇒ `InvalidInput`), then runs the clustering pass.
It reads its input only through the `WorkItem.toCore` projection. -/
def compute (items : List WorkItem) : Except EngineError (List AffinityGroup) :=
  if (items.map WorkItem.toCore).any (fun i => i.effort < 0) then
    .error .invalidInput
  else
    .ok (computeAux (items.map WorkItem.toCore) (items.map WorkItem.toCore).length
      (items.map WorkItem.toCore))

end AffinityEngine

/-- Splitting a list by a predicate and mapping both halves is, up to
permutation, mapping the list. -/
theorem filter_map_append_perm (p : α → Bool) (f : α → β) (l : List α) :
    (((l.filter p).map f) ++ ((l.filter fun j => !(p j)).map f)).Perm (l.map f) := by
  rw [← List.map_append]
  exact (List.filter_append_perm p l).map f

namespace AffinityEngine

/-- Core coverage lemma: one clustering pass emits, over all its groups,
every remaining item's identifier exactly as often as it occurs in the
remainder — the concatenated membership lists are a permutation of the
remaining identifiers. -/
theorem computeAux_members_perm (src : List ItemCore) :
    ∀ (fuel : ℕ) (rem : List ItemCore), rem.length ≤ fuel →
      ((computeAux src fuel rem).flatMap AffinityGroup.members).Perm
        (rem.map ItemCore.id) := by
  intro fuel
  induction fuel with
  | zero =>
    intro rem h
    have : rem = [] := List.eq_nil_of_length_eq_zero (Nat.le_zero.mp h)
    subst this
    simp [computeAux]
  | succ n ih =>
    intro rem hlen
    rw [computeAux]
    cases hseed : pickSeed src rem with
    | none =>
      have : rem = [] := pickSeed_eq_none hseed
      subst this
      simp
    | some seed =>
      simp only [List.flatMap_cons, mkGroup]
      have hmem := pickSeed_mem hseed
      have hrest : (rem.filter fun j =>
          !(decide (j = seed) || decide (0 < sim src seed j))).length < rem.length := by
        have := length_filter_not_lt
          (p := fun j => decide (j = seed) || decide (0 < sim src seed j)) hmem (by simp)
        simpa using this
      have IH := ih (rem.filter fun j =>
        !(decide (j = seed) || decide (0 < sim src seed j))) (by omega)
      exact (List.Perm.append_left _ IH).trans
        (filter_map_append_perm _ ItemCore.id rem)

end AffinityEngine

/-- Demo input pool: two items sharing the `aws.lambda` tag and one item
with no tags. -/
def demoItems : List WorkItem :=
  [ ⟨"a", "A", ["aws.lambda", "terraform"], 1, .todo⟩,
    ⟨"b", "B", ["aws.lambda", "iam"], 2, .todo⟩,
    ⟨"c", "C", [], 3, .todo⟩ ]

/-- The groups `AffinityEngine.compute` produces on `demoItems`. -/
def demoGroups : List AffinityGroup :=
  [ ⟨"aws.lambda", "2 items sharing context aws.lambda", ["a", "b"]⟩,
    ⟨"", "no shared context", ["c"]⟩ ]

/-- C1: every input item identifier appears in exactly one of the groups
returned by `AffinityEngine.compute` — counted over all returned
membership lists it occurs exactly once, and identifiers not in the input
never occur: no item lost, none duplicated. -/
theorem affinity_coverage (items : List WorkItem) (gs : List AffinityGroup)
    (hok : AffinityEngine.compute items = Except.ok gs)
    (hnd : (items.map WorkItem.id).Nodup) :
    (∀ s ∈ items.map WorkItem.id, (gs.flatMap AffinityGroup.members).count s = 1) ∧
    (∀ s, s ∉ items.map WorkItem.id → (gs.flatMap AffinityGroup.members).count s = 0) := by
  unfold AffinityEngine.compute at hok
  split at hok
  · exact absurd hok (by simp)
  · have hgs : AffinityEngine.computeAux (items.map WorkItem.toCore)
        (items.map WorkItem.toCore).length (items.map WorkItem.toCore) = gs := by
      injection hok
    have hperm := AffinityEngine.computeAux_members_perm (items.map WorkItem.toCore)
      (items.map WorkItem.toCore).length (items.map WorkItem.toCore) le_rfl
    rw [hgs] at hperm
    have hmap : (items.map WorkItem.toCore).map ItemCore.id = items.map WorkItem.id := by
      rw [List.map_map]
      rfl
    rw [hmap] at hperm
    constructor
    · intro s hs
      rw [hperm.count_eq]
      exact List.count_eq_one_of_mem hnd hs
    · intro s hs
      rw [hperm.count_eq]
      exact List.count_eq_zero_of_not_mem hs

/-- Witness for C1 at a concrete pool: `compute` on `demoItems` yields
`demoGroups`, and identifier `"a"` occurs exactly once over all groups. -/
theorem affinity_coverage_witness :
    (demoGroups.flatMap AffinityGroup.members).count "a" = 1 :=
  (affinity_coverage demoItems demoGroups (by rfl) (by decide)).1 "a" (by decide)

/-- C3: `AffinityEngine.compute` is deterministic — it reads its input only
through the identifier/tags/effort projection, so any two runs on inputs
agreeing on identifiers, tags, efforts and order (labels and statuses may
differ) return identical groups, keys, and member orderings. -/
theorem affinity_deterministic (items₁ items₂ : List WorkItem)
    (h : items₁.map WorkItem.toCore = items₂.map WorkItem.toCore) :
    AffinityEngine.compute items₁ = AffinityEngine.compute items₂ := by
  unfold AffinityEngine.compute
  rw [h]

/-- First determinism-demo pool. -/
def detItemsA : List WorkItem := [⟨"a", "Rotate the TLS certs", ["tls"], 1, .todo⟩]

/-- Second determinism-demo pool: same identifier, tags, effort and order
as `detItemsA`, different label and status. -/
def detItemsB : List WorkItem := [⟨"a", "Some other label", ["tls"], 1, .done⟩]

/-- Witness for C3: two concrete runs on pools that agree on identifiers,
tags, efforts and order produce identical output. -/
theorem affinity_deterministic_witness :
    AffinityEngine.compute detItemsA = AffinityEngine.compute detItemsB :=
  affinity_deterministic detItemsA detItemsB (by rfl)

/-! ## PlanScheduler (modelled from the design document §4.2) -/

/-- The block bucket, from the SQL enum
`CREATE TYPE plan_bucket AS ENUM ('Focus','Admin','Meeting')`. -/
inductive Bucket where
  | Focus
  | Admin
  | Meeting
deriving DecidableEq, Repr

/-- PlanBlock (design document §3 / the `PlannedBlock` interface of
`client.ts`): calendar date, bucket, optional note, ordered member
identifiers. -/
structure PlanBlock where
  date : ℤ
  bucket : Bucket
  note : Option String
  members : List String
deriving DecidableEq, Repr

/-- Constraint configuration (design document §3; field names as in the
`PlannerConstraints` interface of `client.ts`). -/
structure PlannerConstraints where
  max_contexts_per_day : ℤ
  max_focus_blocks_per_day : ℤ
  buffer_ratio : ℚ
  workdays : List ℤ
deriving DecidableEq, Repr

/-- The constraint defaults: contexts/day 2, focus-blocks/day 4, buffer
ratio 0.2 (the planner form defaults in src/unnamed/part_006), workdays
Monday–Friday (§3 "defaults to a standard five-day week"). -/
def defaultConstraints : PlannerConstraints :=
  { max_contexts_per_day := 2
    max_focus_blocks_per_day := 4
    buffer_ratio := mkRat 1 5
    workdays := [0, 1, 2, 3, 4] }

/-- Weekday index of an epoch-day number with Monday = 0 … Sunday = 6
(matching the Monday-first weekday labels of the frontend calendar);
day 0 (1970-01-01) was a Thursday, index 3. -/
def mondayIndex (d : ℤ) : ℤ := (d + 3) % 7

namespace PlanScheduler

/-- Modelled from the spec: nominal daily capacity in hours.  The design
document references it (§4.2 "nominal daily capacity") without fixing a
value; the model takes an 8-hour workday. -/
def nominalDailyCapacity : ℚ := 8

/-- Modelled from the spec: a workday's starting capacity —
`nominal daily capacity × (1 − buffer_ratio)` (§4.2). -/
def dayCapacity (c : PlannerConstraints) : ℚ :=
  qMul nominalDailyCapacity (qSub 1 c.buffer_ratio)

/-- The value of `dayCapacity` in terms of the standard rational operations. -/
theorem dayCapacity_eq (c : PlannerConstraints) :
    dayCapacity c = nominalDailyCapacity * (1 - c.buffer_ratio) := by
  rw [dayCapacity, qMul_eq, qSub_eq]

/-- Modelled from the spec: the top-level tag context of an item — the
leading tag's top-level segment (§3 "distinct top-level tag contexts");
an untagged item has the empty context. -/
def contextOf (i : WorkItem) : String :=
  match i.tags with
  | [] => ""
  | t :: _ => { data := t.data.takeWhile fun ch => ch ≠ '.' }

/-- Modelled from the spec: admission test for an item on the current day
(§4.2) — its effort fits the remaining capacity, its context does not push
the day's distinct-context count past `max_contexts_per_day`, and one more
Focus block stays within `max_focus_blocks_per_day`. -/
def fits (c : PlannerConstraints) (cap : ℚ) (ctxs : List String) (fc : ℤ)
    (i : WorkItem) : Bool :=
  decide (i.effort ≤ cap) &&
  decide ((if contextOf i ∈ ctxs then (ctxs.length : ℤ) else ctxs.length + 1) ≤
    c.max_contexts_per_day) &&
  decide (fc + 1 ≤ c.max_focus_blocks_per_day)

/-- Modelled from the spec: candidate selection (§4.2) — among the
unscheduled items that fit the day, the one with the highest remaining
effort, earliest in input order on ties. -/
def pickCandidate (c : PlannerConstraints) (cap : ℚ) (ctxs : List String)
    (fc : ℤ) (pool : List WorkItem) : Option WorkItem :=
  chooseBest (fun j b => j.effort > b.effort) (pool.filter (fits c cap ctxs fc))

/-- Modelled from the spec: record a day's context as used. -/
def insertCtx (k : String) (ctxs : List String) : List String :=
  if k ∈ ctxs then ctxs else k :: ctxs

/-- Modelled from the spec: the Focus block admitting one item to a day
(§4.2, one block per admitted group/item, carrying its member
identifiers). -/
def mkBlock (d : ℤ) (i : WorkItem) : PlanBlock :=
  { date := d, bucket := .Focus, note := some (contextOf i), members := [i.id] }

/-- Modelled from the spec: fill one workday (§4.2) — repeatedly admit the
best fitting candidate, deducting its effort from the remaining capacity
and tracking the day's contexts and Focus-block count, until nothing more
fits; returns the day's blocks and the deferred remainder of the pool.
Each admission removes one item, so `pool.length` rounds suffice; the
explicit `fuel` bound makes the recursion structural. -/
def fillDayAux (c : PlannerConstraints) (d : ℤ) :
    ℕ → ℚ → List String → ℤ → List WorkItem → List PlanBlock × List WorkItem
  | 0, _, _, _, pool => ([], pool)
  | fuel + 1, cap, ctxs, fc, pool =>
    match pickCandidate c cap ctxs fc pool with
    | none => ([], pool)
    | some i =>
      let r := fillDayAux c d fuel (qSub cap i.effort)
        (insertCtx (contextOf i) ctxs) (fc + 1) (pool.erase i)
      (mkBlock d i :: r.1, r.2)

/-- Modelled from the spec: fill the workday `d` starting from the buffered
daily capacity with no contexts or Focus blocks used yet. -/
def fillDay (c : PlannerConstraints) (d : ℤ) (pool : List WorkItem) :
    List PlanBlock × List WorkItem :=
  fillDayAux c d pool.length (dayCapacity c) [] 0 pool

/-- Modelled from the spec: the day-cursor walk (§4.2) — fill each workday
in order, passing the deferred remainder of the pool to the next day; any
remainder past the last day is left unscheduled. -/
def scheduleDays (c : PlannerConstraints) : List ℤ → List WorkItem → List PlanBlock
  | [], _ => []
  | d :: ds, pool =>
    (fillDay c d pool).1 ++ scheduleDays c ds (fillDay c d pool).2

/-- Modelled from the spec: the candidate workdays — the `horizon_days`
calendar days from `start_date`, keeping those whose weekday index is in
the configured workday set (§4.2 "walk forward one calendar day at a time,
skipping non-workdays"). -/
def workdayList (start_date horizon_days : ℤ) (wds : List ℤ) : List ℤ :=
  ((List.range horizon_days.toNat).map fun k => start_date + Int.ofNat k).filter
    fun d => decide (mondayIndex d ∈ wds)

/-- Failure conditions of §4.2 / §7. -/
inductive SchedulerError where
  | invalidConstraint
deriving DecidableEq, Repr

/-- Modelled from the spec: `PlanScheduler.schedule` (§4.2).  Validates the
constraint configuration at entry (`InvalidConstraint` when `buffer_ratio`
is outside `[0,1)`, when `max_contexts_per_day` or
`max_focus_blocks_per_day` is non-positive, or when `horizon_days` is
non-positive), then performs the greedy day-filling walk. -/
def schedule (pool : List WorkItem) (start_date horizon_days : ℤ)
    (c : PlannerConstraints) : Except SchedulerError (List PlanBlock) :=
  if c.buffer_ratio < 0 ∨ 1 ≤ c.buffer_ratio ∨ c.max_contexts_per_day ≤ 0 ∨
      c.max_focus_blocks_per_day ≤ 0 ∨ horizon_days ≤ 0 then
    .error .invalidConstraint
  else
    .ok (scheduleDays c (workdayList start_date horizon_days c.workdays) pool)

end PlanScheduler

/-- Effort lookup by identifier in a pool (first match; `0` when absent). -/
def effortOf (pool : List WorkItem) (s : String) : ℚ :=
  match pool.find? (fun i => i.id == s) with
  | some i => i.effort
  | none => 0

/-- In a pool with distinct identifiers, looking a member item up by its
own identifier finds that item. -/
theorem find_id_eq_self {items : List WorkItem}
    (hnd : (items.map WorkItem.id).Nodup) {i : WorkItem} (hi : i ∈ items) :
    items.find? (fun j => j.id == i.id) = some i := by
  induction items with
  | nil => cases hi
  | cons a l ih =>
    simp only [List.map_cons, List.nodup_cons] at hnd
    by_cases h : a.id = i.id
    · rcases List.mem_cons.mp hi with rfl | hi'
      · exact List.find?_cons_of_pos _ (by simp)
      · exfalso
        have : i.id ∈ l.map WorkItem.id := List.mem_map_of_mem _ hi'
        rw [← h] at this
        exact hnd.1 this
    · have hi' : i ∈ l := by
        rcases List.mem_cons.mp hi with rfl | hi'
        · exact absurd rfl h
        · exact hi'
      rw [List.find?_cons_of_neg _ (by simp [h])]
      exact ih hnd.2 hi'

/-- In a pool with distinct identifiers, `effortOf` recovers a member
item's effort. -/
theorem effortOf_id {items : List WorkItem}
    (hnd : (items.map WorkItem.id).Nodup) {i : WorkItem} (hi : i ∈ items) :
    effortOf items i.id = i.effort := by
  unfold effortOf
  rw [find_id_eq_self hnd hi]

namespace PlanScheduler

/-- A picked candidate belongs to the pool and passes the admission test. -/
theorem pickCandidate_mem {c : PlannerConstraints} {cap : ℚ}
    {ctxs : List String} {fc : ℤ} {pool : List WorkItem} {i : WorkItem}
    (h : pickCandidate c cap ctxs fc pool = some i) :
    i ∈ pool ∧ fits c cap ctxs fc i = true :=
  List.mem_filter.mp (chooseBest_mem h)

/-- Every block a day-filling round emits is dated on that day. -/
theorem fillDayAux_date (c : PlannerConstraints) (d : ℤ) :
    ∀ (fuel : ℕ) (cap : ℚ) (ctxs : List String) (fc : ℤ)
      (pool : List WorkItem),
      ∀ b ∈ (fillDayAux c d fuel cap ctxs fc pool).1, b.date = d := by
  intro fuel
  induction fuel with
  | zero => intro cap ctxs fc pool b hb; simp [fillDayAux] at hb
  | succ n ih =>
    intro cap ctxs fc pool b hb
    rw [fillDayAux] at hb
    cases hc : pickCandidate c cap ctxs fc pool with
    | none => rw [hc] at hb; simp at hb
    | some i =>
      rw [hc] at hb
      simp only [List.mem_cons] at hb
      rcases hb with rfl | hb
      · rfl
      · exact ih _ _ _ _ b hb

/-- The deferred remainder of a day-filling round is drawn from the pool. -/
theorem fillDayAux_rest (c : PlannerConstraints) (d : ℤ) :
    ∀ (fuel : ℕ) (cap : ℚ) (ctxs : List String) (fc : ℤ)
      (pool : List WorkItem),
      ∀ j ∈ (fillDayAux c d fuel cap ctxs fc pool).2, j ∈ pool := by
  intro fuel
  induction fuel with
  | zero => intro cap ctxs fc pool j hj; simpa [fillDayAux] using hj
  | succ n ih =>
    intro cap ctxs fc pool j hj
    rw [fillDayAux] at hj
    cases hc : pickCandidate c cap ctxs fc pool with
    | none => rw [hc] at hj; simpa using hj
    | some i =>
      rw [hc] at hj
      simp only at hj
      exact List.erase_subset _ _ (ih _ _ _ _ j hj)

/-- Capacity safety of one day-filling round: the total effort of the
admitted items (looked up by identifier in the ambient pool) never exceeds
the capacity the round started with. -/
theorem fillDayAux_effort (items : List WorkItem)
    (hnd : (items.map WorkItem.id).Nodup) (c : PlannerConstraints) (d : ℤ) :
    ∀ (fuel : ℕ) (cap : ℚ) (ctxs : List String) (fc : ℤ)
      (pool : List WorkItem),
      (∀ i ∈ pool, i ∈ items) → 0 ≤ cap →
      ((((fillDayAux c d fuel cap ctxs fc pool).1.flatMap
        PlanBlock.members).map (effortOf items)).sum) ≤ cap := by
  intro fuel
  induction fuel with
  | zero => intro cap ctxs fc pool _ hcap; simpa [fillDayAux] using hcap
  | succ n ih =>
    intro cap ctxs fc pool hsub hcap
    rw [fillDayAux]
    cases hc : pickCandidate c cap ctxs fc pool with
    | none => simpa using hcap
    | some i =>
      have hifits := pickCandidate_mem hc
      have hieff : i.effort ≤ cap := by
        have := hifits.2
        unfold fits at this
        simp only [Bool.and_eq_true, decide_eq_true_eq] at this
        exact this.1.1
      have hiitems : i ∈ items := hsub i hifits.1
      simp only [List.flatMap_cons, List.map_append, List.sum_append, mkBlock]
      have heff : effortOf items i.id = i.effort := effortOf_id hnd hiitems
      have hrec := ih (qSub cap i.effort) (insertCtx (contextOf i) ctxs) (fc + 1)
        (pool.erase i) (fun j hj => hsub j (List.erase_subset _ _ hj))
        (by rw [qSub_eq]; linarith)
      have hq : qSub cap i.effort = cap - i.effort := qSub_eq cap i.effort
      simp only [List.map_cons, List.map_nil, List.sum_cons, List.sum_nil, heff]
      linarith [hrec, hq]

end PlanScheduler

namespace PlanScheduler

/-- Every block the day walk emits is dated on one of the walked days. -/
theorem scheduleDays_date (c : PlannerConstraints) :
    ∀ (days : List ℤ) (pool : List WorkItem),
      ∀ b ∈ scheduleDays c days pool, b.date ∈ days := by
  intro days
  induction days with
  | nil => intro pool b hb; simp [scheduleDays] at hb
  | cons d ds ih =>
    intro pool b hb
    rw [scheduleDays] at hb
    rcases List.mem_append.mp hb with hb | hb
    · exact List.mem_cons.mpr (Or.inl
        (fillDayAux_date c d _ _ _ _ _ b (by simpa [fillDay] using hb)))
    · exact List.mem_cons.mpr (Or.inr (ih _ b hb))

/-- A pool-empty day walk emits nothing. -/
theorem scheduleDays_nil_pool (c : PlannerConstraints) :
    ∀ days : List ℤ, scheduleDays c days [] = [] := by
  intro days
  induction days with
  | nil => rfl
  | cons d ds ih => rw [scheduleDays]; simpa [fillDay, fillDayAux]

/-- Capacity safety of the day walk: over distinct days, the total
looked-up effort of the blocks on any one date stays within the buffered
daily capacity. -/
theorem scheduleDays_capacity (items : List WorkItem)
    (hnd : (items.map WorkItem.id).Nodup) (c : PlannerConstraints)
    (hcap : 0 ≤ dayCapacity c) :
    ∀ (days : List ℤ), days.Nodup →
      ∀ (pool : List WorkItem), (∀ i ∈ pool, i ∈ items) → ∀ dq : ℤ,
        ((((scheduleDays c days pool).filter fun b =>
          b.date == dq).flatMap PlanBlock.members).map (effortOf items)).sum ≤
          dayCapacity c := by
  intro days
  induction days with
  | nil => intro _ pool _ dq; simpa [scheduleDays] using hcap
  | cons d ds ih =>
    intro hnodup pool hsub dq
    rw [scheduleDays, List.filter_append, List.flatMap_append, List.map_append,
      List.sum_append]
    have hrest : ∀ j ∈ (fillDay c d pool).2, j ∈ items := fun j hj =>
      hsub j (fillDayAux_rest c d _ _ _ _ _ j (by simpa [fillDay] using hj))
    by_cases hdq : dq = d
    · rw [hdq]
      have h1 : (fillDay c d pool).1.filter (fun b => b.date == d) =
          (fillDay c d pool).1 :=
        List.filter_eq_self.mpr fun b hb => by
          simp [fillDayAux_date c d _ _ _ _ _ b (by simpa [fillDay] using hb)]
      have h2 : (scheduleDays c ds (fillDay c d pool).2).filter
          (fun b => b.date == d) = [] := by
        rw [List.filter_eq_nil_iff]
        intro b hb
        have hmem := scheduleDays_date c ds _ b hb
        have hne : b.date ≠ d := by
          intro he
          rw [he] at hmem
          exact (List.nodup_cons.mp hnodup).1 hmem
        simp [hne]
      rw [h1, h2]
      have := fillDayAux_effort items hnd c d pool.length (dayCapacity c) [] 0
        pool hsub hcap
      simpa [fillDay] using this
    · have h1 : (fillDay c d pool).1.filter (fun b => b.date == dq) = [] := by
        rw [List.filter_eq_nil_iff]
        intro b hb
        have := fillDayAux_date c d _ _ _ _ _ b (by simpa [fillDay] using hb)
        simp [this, Ne.symm hdq]
      rw [h1]
      simpa using ih (List.nodup_cons.mp hnodup).2 _ hrest dq

/-- The walked candidate days are pairwise distinct. -/
theorem workdayList_nodup (s h : ℤ) (wds : List ℤ) :
    (workdayList s h wds).Nodup := by
  unfold workdayList
  apply List.Nodup.filter
  apply List.Nodup.map
  · intro a b hab
    have h2 : Int.ofNat a = Int.ofNat b := by simpa using hab
    exact Int.ofNat.inj h2
  · exact List.nodup_range _

/-- Every walked candidate day's weekday index is in the workday set. -/
theorem workdayList_workday (s h : ℤ) (wds : List ℤ) :
    ∀ d ∈ workdayList s h wds, mondayIndex d ∈ wds := by
  intro d hd
  have := List.of_mem_filter hd
  simpa using this

end PlanScheduler

/-- C2: capacity invariant — for every scheduling run and every date, the
total estimated effort of the items assigned to that date (members of the
date's blocks, looked up in the pool) does not exceed
`nominal daily capacity × (1 − buffer_ratio)`. -/
theorem scheduler_capacity_invariant (pool : List WorkItem) (s h : ℤ)
    (c : PlannerConstraints) (blocks : List PlanBlock)
    (hok : PlanScheduler.schedule pool s h c = Except.ok blocks)
    (hnd : (pool.map WorkItem.id).Nodup) (d : ℤ) :
    (((blocks.filter fun b => b.date == d).flatMap PlanBlock.members).map
      (effortOf pool)).sum ≤
      PlanScheduler.nominalDailyCapacity * (1 - c.buffer_ratio) := by
  unfold PlanScheduler.schedule at hok
  split at hok
  · exact absurd hok (by simp)
  · rename_i hvalid
    push_neg at hvalid
    obtain ⟨h1, h2, h3, h4, h5⟩ := hvalid
    have hblocks : PlanScheduler.scheduleDays c
        (PlanScheduler.workdayList s h c.workdays) pool = blocks := by
      injection hok
    have hcap : 0 ≤ PlanScheduler.dayCapacity c := by
      rw [PlanScheduler.dayCapacity_eq]
      have hb1 : (0 : ℚ) ≤ 1 - c.buffer_ratio := by linarith
      have hb2 : (0 : ℚ) ≤ PlanScheduler.nominalDailyCapacity := by
        norm_num [PlanScheduler.nominalDailyCapacity]
      exact mul_nonneg hb2 hb1
    have hmain := PlanScheduler.scheduleDays_capacity pool hnd c hcap
      (PlanScheduler.workdayList s h c.workdays)
      (PlanScheduler.workdayList_nodup s h c.workdays) pool (fun i hi => hi) d
    rw [hblocks] at hmain
    rw [← PlanScheduler.dayCapacity_eq]
    exact hmain

/-- One-item demo pool for the scheduler witnesses. -/
def capDemoPool : List WorkItem := [⟨"a", "Fix the resolver", ["net.dns"], 1, .todo⟩]

/-- The blocks `PlanScheduler.schedule` produces on `capDemoPool` from
Monday (epoch day 4), horizon 5, default constraints. -/
def capDemoBlocks : List PlanBlock := [⟨4, .Focus, some "net", ["a"]⟩]

/-- Witness for C2 at a concrete run: on `capDemoPool` the effort placed
on day 4 stays within the buffered capacity. -/
theorem scheduler_capacity_invariant_witness :
    (((capDemoBlocks.filter fun b => b.date == (4 : ℤ)).flatMap
      PlanBlock.members).map (effortOf capDemoPool)).sum ≤
      PlanScheduler.nominalDailyCapacity * (1 - defaultConstraints.buffer_ratio) :=
  scheduler_capacity_invariant capDemoPool 4 5 defaultConstraints capDemoBlocks
    (by rfl) (by decide) 4

/-- C7: workday invariant — every block of a scheduling run is dated on a
weekday the `workdays` configuration allows; under the default
configuration no block falls on Saturday (index 5) or Sunday (index 6). -/
theorem scheduler_workday_invariant (pool : List WorkItem) (s h : ℤ)
    (c : PlannerConstraints) (blocks : List PlanBlock)
    (hok : PlanScheduler.schedule pool s h c = Except.ok blocks) :
    ∀ b ∈ blocks, mondayIndex b.date ∈ c.workdays ∧
      (c.workdays = defaultConstraints.workdays →
        mondayIndex b.date ≠ 5 ∧ mondayIndex b.date ≠ 6) := by
  unfold PlanScheduler.schedule at hok
  split at hok
  · exact absurd hok (by simp)
  · have hblocks : PlanScheduler.scheduleDays c
        (PlanScheduler.workdayList s h c.workdays) pool = blocks := by
      injection hok
    intro b hb
    rw [← hblocks] at hb
    have hdmem := PlanScheduler.scheduleDays_date c _ _ b hb
    have hwd := PlanScheduler.workdayList_workday s h c.workdays _ hdmem
    refine ⟨hwd, fun heq => ?_⟩
    rw [heq] at hwd
    simp only [defaultConstraints, List.mem_cons, List.mem_singleton,
      List.not_mem_nil, or_false] at hwd
    rcases hwd with h0 | h0 | h0 | h0 | h0 <;> simp [h0]

/-- Witness for C7 at a concrete run: the single block of the
`capDemoPool` schedule lands on an allowed weekday, not on a weekend. -/
theorem scheduler_workday_invariant_witness :
    mondayIndex (PlanBlock.date ⟨4, .Focus, some "net", ["a"]⟩) ∈
      defaultConstraints.workdays ∧
    (defaultConstraints.workdays = defaultConstraints.workdays →
      mondayIndex (PlanBlock.date ⟨4, .Focus, some "net", ["a"]⟩) ≠ 5 ∧
      mondayIndex (PlanBlock.date ⟨4, .Focus, some "net", ["a"]⟩) ≠ 6) :=
  scheduler_workday_invariant capDemoPool 4 5 defaultConstraints capDemoBlocks
    (by rfl) ⟨4, .Focus, some "net", ["a"]⟩ (by decide)

/-- C5: `PlanScheduler.schedule` fails with `InvalidConstraint` exactly
when the configuration is malformed — `buffer_ratio` outside `[0,1)`,
`max_contexts_per_day` or `max_focus_blocks_per_day` non-positive, or
`horizon_days` non-positive — and succeeds on every well-formed
configuration. -/
theorem scheduler_invalid_constraint (pool : List WorkItem) (s h : ℤ)
    (c : PlannerConstraints) :
    (PlanScheduler.schedule pool s h c =
        Except.error PlanScheduler.SchedulerError.invalidConstraint ↔
      (c.buffer_ratio < 0 ∨ 1 ≤ c.buffer_ratio ∨ c.max_contexts_per_day ≤ 0 ∨
        c.max_focus_blocks_per_day ≤ 0 ∨ h ≤ 0)) ∧
    ((0 ≤ c.buffer_ratio ∧ c.buffer_ratio < 1 ∧ 0 < c.max_contexts_per_day ∧
        0 < c.max_focus_blocks_per_day ∧ 0 < h) →
      ∃ blocks, PlanScheduler.schedule pool s h c = Except.ok blocks) := by
  constructor
  · unfold PlanScheduler.schedule
    split
    · rename_i hcond
      simp [hcond]
    · rename_i hcond
      simp [hcond]
  · intro hv
    refine ⟨PlanScheduler.scheduleDays c (PlanScheduler.workdayList s h c.workdays)
      pool, ?_⟩
    unfold PlanScheduler.schedule
    rw [if_neg]
    push_neg
    exact ⟨hv.1, hv.2.1, hv.2.2.1, hv.2.2.2.1, hv.2.2.2.2⟩

/-- Witness for C5: the default constraints with a 10-day horizon are
well-formed, so a run succeeds (returns `ok`). -/
theorem scheduler_invalid_constraint_witness :
    ∃ blocks, PlanScheduler.schedule [] 0 10 defaultConstraints =
      Except.ok blocks :=
  (scheduler_invalid_constraint [] 0 10 defaultConstraints).2
    ⟨by decide, by decide, by decide, by decide, by decide⟩

/-- C6: empty work pool — `AffinityEngine.compute` on an empty item list
returns an empty group list, and `PlanScheduler.schedule` on an empty pool
(under any well-formed constraint configuration) returns an empty block
list; neither raises an error. -/
theorem empty_pool_noop :
    AffinityEngine.compute [] = Except.ok [] ∧
    ∀ (s h : ℤ) (c : PlannerConstraints),
      0 ≤ c.buffer_ratio → c.buffer_ratio < 1 → 0 < c.max_contexts_per_day →
      0 < c.max_focus_blocks_per_day → 0 < h →
      PlanScheduler.schedule [] s h c = Except.ok [] := by
  constructor
  · rfl
  · intro s h c h1 h2 h3 h4 h5
    unfold PlanScheduler.schedule
    rw [if_neg]
    · rw [PlanScheduler.scheduleDays_nil_pool]
    · push_neg
      exact ⟨h1, h2, h3, h4, h5⟩

/-- Witness for C6: a concrete empty-pool run under the default
constraints returns the empty schedule. -/
theorem empty_pool_noop_witness :
    PlanScheduler.schedule [] 0 10 defaultConstraints = Except.ok [] :=
  empty_pool_noop.2 0 10 defaultConstraints (by decide) (by decide) (by decide)
    (by decide) (by decide)

/-- The overflow-scenario pool: ten items, each requiring a full day's
nominal capacity (8 hours), in one shared context. -/
def overflowItems : List WorkItem :=
  [ ⟨"t0", "full-day item", ["ops.deploy"], 8, .todo⟩,
    ⟨"t1", "full-day item", ["ops.deploy"], 8, .todo⟩,
    ⟨"t2", "full-day item", ["ops.deploy"], 8, .todo⟩,
    ⟨"t3", "full-day item", ["ops.deploy"], 8, .todo⟩,
    ⟨"t4", "full-day item", ["ops.deploy"], 8, .todo⟩,
    ⟨"t5", "full-day item", ["ops.deploy"], 8, .todo⟩,
    ⟨"t6", "full-day item", ["ops.deploy"], 8, .todo⟩,
    ⟨"t7", "full-day item", ["ops.deploy"], 8, .todo⟩,
    ⟨"t8", "full-day item", ["ops.deploy"], 8, .todo⟩,
    ⟨"t9", "full-day item", ["ops.deploy"], 8, .todo⟩ ]

/-- The overflow-scenario constraints: one Focus block per day, no buffer
(a full day's capacity is schedulable), five-day week. -/
def overflowConstraints : PlannerConstraints :=
  { max_contexts_per_day := 2
    max_focus_blocks_per_day := 1
    buffer_ratio := 0
    workdays := [0, 1, 2, 3, 4] }

/-- The overflow-scenario output: one block per workday of the two-week
window starting Monday epoch-day 4 (days 9/10 and 16/17 are the
weekends), one item per block, in input order. -/
def overflowBlocks : List PlanBlock :=
  [ ⟨4, .Focus, some "ops", ["t0"]⟩,
    ⟨5, .Focus, some "ops", ["t1"]⟩,
    ⟨6, .Focus, some "ops", ["t2"]⟩,
    ⟨7, .Focus, some "ops", ["t3"]⟩,
    ⟨8, .Focus, some "ops", ["t4"]⟩,
    ⟨11, .Focus, some "ops", ["t5"]⟩,
    ⟨12, .Focus, some "ops", ["t6"]⟩,
    ⟨13, .Focus, some "ops", ["t7"]⟩,
    ⟨14, .Focus, some "ops", ["t8"]⟩,
    ⟨15, .Focus, some "ops", ["t9"]⟩ ]

/-- C8: overflow scenario — ten items each requiring a full day's nominal
capacity, `max_focus_blocks_per_day = 1`, a horizon containing exactly 10
workdays (14 calendar days from a Monday, five-day week): the run
schedules exactly one item per workday — the block dates are exactly the
horizon's 10 distinct workdays — and leaves no item unscheduled. -/
theorem scheduler_overflow_scenario :
    PlanScheduler.schedule overflowItems 4 14 overflowConstraints =
      Except.ok overflowBlocks ∧
    overflowBlocks.map PlanBlock.date =
      PlanScheduler.workdayList 4 14 overflowConstraints.workdays ∧
    (overflowBlocks.map PlanBlock.date).Nodup ∧
    (overflowBlocks.map fun b => b.members.length) = List.replicate 10 1 ∧
    overflowBlocks.flatMap PlanBlock.members = overflowItems.map WorkItem.id :=
  ⟨by rfl, by rfl, by decide, by rfl, by rfl⟩

/-- The status labels the specification claims: pending / active /
blocked / complete. -/
def specClaimedStatuses : List String := ["pending", "active", "blocked", "complete"]

/-- The status labels the code actually uses (the SQL enums and the badge
colour keys): todo / in_progress / blocked / done. -/
def codeStatuses : List String := ["todo", "in_progress", "blocked", "done"]

/-- Counterexample for C4: the code's status set is not the claimed
`{pending, active, blocked, complete}` — the status `todo` (a valid
`ticket_status`) is outside the claimed set, so the claim as stated is
false. -/
theorem status_set_counterexample :
    ¬ ∀ s : TicketStatus, TicketStatus.label s ∈ specClaimedStatuses := by
  intro hall
  exact absurd (hall TicketStatus.todo) (by decide)

/-- C4 (amended): every lifecycle status is drawn from the closed set
`{todo, in_progress, blocked, done}` — every `ticket_status` value's label
is in that set, and the badge colour lookup accepts exactly that set. -/
theorem status_closed_set :
    (∀ s : TicketStatus, TicketStatus.label s ∈ codeStatuses) ∧
    (∀ k : String, (STATUS_COLORS k).isSome = true ↔ k ∈ codeStatuses) := by
  constructor
  · intro s
    cases s <;> decide
  · intro k
    unfold STATUS_COLORS codeStatuses
    split_ifs with h1 h2 h3 h4 <;> simp_all

/-- C9: the shared API client's `request` helper — a non-ok response
throws an `ApiError` carrying the response's HTTP status and the body text
(falling back to the status text when the body is empty); an ok 204
returns `undefined`; any other ok response returns the parsed JSON body.
A failed request never yields a value and a successful one never throws. -/
theorem request_spec (r : FetchResponse) :
    (r.ok = false →
      request r = .thrown (if r.body = "" then r.statusText else r.body) r.status) ∧
    (r.ok = true → r.status = 204 → request r = .value none) ∧
    (r.ok = true → r.status ≠ 204 → request r = .value (some r.json)) ∧
    (r.ok = false → ∀ v, request r ≠ .value v) ∧
    (r.ok = true → ∀ m st, request r ≠ .thrown m st) := by
  refine ⟨fun hko => ?_, fun hok h204 => ?_, fun hok h204 => ?_,
    fun hko v => ?_, fun hok m st => ?_⟩
  · simp [request, hko]
  · simp [request, hok, h204]
  · simp [request, hok, h204]
  · simp [request, hko]
  · simp [request, hok]
    by_cases h204 : r.status = 204 <;> simp [h204]

/-- A non-ok demo response with an empty body. -/
def err500 : FetchResponse :=
  { ok := false, status := 500, statusText := "Internal Server Error",
    body := "", json := "" }

/-- An ok demo response carrying a JSON body. -/
def okJson : FetchResponse :=
  { ok := true, status := 200, statusText := "OK",
    body := "[]", json := "[]" }

/-- Witness for C9 at concrete responses: a 500 with empty body throws
`ApiError("Internal Server Error", 500)`, and a 200 returns the parsed
body. -/
theorem request_spec_witness :
    request err500 = .thrown "Internal Server Error" 500 ∧
    request okJson = .value (some "[]") :=
  ⟨(request_spec err500).1 rfl, (request_spec okJson).2.2.1 rfl (by decide)⟩

/-- C10: `buildCalendarWeeks` returns exactly 6 weeks of 7 days each; the
42 days, flattened, are the consecutive dates starting at the Monday on or
before the first of the month; that first returned day is a Monday
(`getDay = 1`); and the first day of the given month lies in the first
returned week. -/
theorem buildCalendarWeeks_spec (s : ℤ) :
    (buildCalendarWeeks s).length = 6 ∧
    (∀ w ∈ buildCalendarWeeks s, w.length = 7) ∧
    (buildCalendarWeeks s).flatten =
      (List.range 42).map (fun k : ℕ => s - (jsGetDay s + 6) % 7 + (k : ℤ)) ∧
    jsGetDay (s - (jsGetDay s + 6) % 7) = 1 ∧
    ∃ w0, (buildCalendarWeeks s).head? = some w0 ∧ s ∈ w0 := by
  refine ⟨rfl, ?_, ?_, ?_, ?_⟩
  · intro w hw
    unfold buildCalendarWeeks at hw
    simp only [List.mem_map] at hw
    obtain ⟨a, -, rfl⟩ := hw
    simp
  · unfold buildCalendarWeeks
    have h6 : List.range 6 = [0, 1, 2, 3, 4, 5] := rfl
    have h7 : List.range 7 = [0, 1, 2, 3, 4, 5, 6] := rfl
    have h42 : List.range 42 =
      [0, 1, 2, 3, 4, 5, 6, 7, 8, 9, 10, 11, 12, 13, 14, 15, 16, 17, 18, 19, 20,
       21, 22, 23, 24, 25, 26, 27, 28, 29, 30, 31, 32, 33, 34, 35, 36, 37, 38,
       39, 40, 41] := rfl
    rw [h6, h7, h42]
    simp only [List.map_cons, List.map_nil, List.flatten_cons, List.flatten_nil,
      List.append_nil, List.cons_append, List.nil_append, List.cons.injEq,
      and_true]
    unfold jsGetDay
    norm_num
    omega
  · unfold jsGetDay
    omega
  · refine ⟨(List.range 7).map
      (fun d : ℕ => s - (jsGetDay s + 6) % 7 + 7 * ((0 : ℕ) : ℤ) + (d : ℤ)), rfl, ?_⟩
    simp only [List.mem_map, List.mem_range]
    refine ⟨((jsGetDay s + 6) % 7).toNat, ?_, ?_⟩
    · unfold jsGetDay
      omega
    · unfold jsGetDay
      push_cast
      omega

/-- Witness for C10 at a concrete month: for epoch day 0 (a Thursday) the
first returned week runs Monday −3 through Sunday 3 and has 7 days. -/
theorem buildCalendarWeeks_spec_witness :
    ([-3, -2, -1, 0, 1, 2, 3] : List ℤ).length = 7 :=
  (buildCalendarWeeks_spec 0).2.1 [-3, -2, -1, 0, 1, 2, 3] (by decide)
